import Mathlib

/-!
Verification of the yurthub disk-backed key-value storage engine
(`pkg/yurthub/storage/disk`): its key resolution, the classification of a
resolved path as absent / regular file / directory, and the public
operations Create, Get, Update, Delete, List and ListKeys.

The engine's implementation file is not part of the sources at hand; only
its test suite (`pkg/yurthub/storage/disk/storage_test.go`) is. The
definitions below are therefore modelled from the specification's component
design (KeyPath Resolver, Storage Engine) and pinned, wherever the two
disagree, by the behaviour the test suite asserts:

* `TestDeleteDir` asserts that after `Delete` on a directory key the
  descendant regular file is still there, so `Delete` on a namespace node
  removes nothing;
* every test constructs the engine as `NewDiskStorage()` with no argument
  and refers to the package-level `cacheBaseDir`, so the cache root is a
  fixed package constant, not a constructor parameter.

Payloads (`[]byte` in the source) are byte lists; a key is a string, and
the resolver splits it at every slash exactly as the source joins the key
onto the base directory, segment by segment. The filesystem under the
cache root is modelled flatly, the way the source probes it with
`os.Stat`: an association list of file paths to contents together with the
list of existing directory paths, and a classification function over the
two.
-/

/-- A stored payload: the engine's `[]byte` values. -/
abbrev Bytes := List UInt8

/-- A sequence of payloads, the result type of `List`. -/
abbrev BytesSeq := List Bytes

/-- A sequence of keys, the result type of `ListKeys`. -/
abbrev KeySeq := List String

/-- A resolved path: the slash-separated segments of a key, innermost last. -/
abbrev KeyPath := List String

/-- Splits a character list at every slash, the way `strings.Split`/path
joining treats a key: `"a/b"` gives `["a","b"]`, the empty string gives one
empty segment. -/
def splitSegs : List Char → List (List Char)
  | [] => [[]]
  | c :: rest =>
    if c = '/' then [] :: splitSegs rest
    else match splitSegs rest with
      | [] => [[c]]
      | s :: ss => (c :: s) :: ss

/-- Joins segments back with slashes; the inverse of `splitSegs`. -/
def joinSegs : List (List Char) → List Char
  | [] => []
  | [s] => s
  | s :: s2 :: ss => s ++ '/' :: joinSegs (s2 :: ss)

/-- KeyPath Resolver, `resolve(key) -> path`: maps a slash-delimited logical
key to its list of segments relative to the cache root. -/
def resolve (key : String) : KeyPath := (splitSegs key.data).map (fun cs => ⟨cs⟩)

/-- Rebuilds the full key (relative to the cache root) from a resolved
path, the way the source derives a listed key from a walked file path. -/
def keyOfPath (p : KeyPath) : String := ⟨joinSegs (p.map String.data)⟩

/-- Filesystem state under the cache root, as the engine itself observes
it through metadata probing: the regular files with their contents, and
the directories that exist. -/
structure FS where
  files : List (KeyPath × Bytes)
  dirs : List KeyPath
deriving DecidableEq

/-- The state of a freshly created, empty cache root. -/
def FS.empty : FS := ⟨[], []⟩

/-- First-match lookup of a file path in the files association list. -/
def lookupF : List (KeyPath × Bytes) → KeyPath → Option Bytes
  | [], _ => none
  | (q, e) :: rest, p => if q = p then some e else lookupF rest p

/-- Replaces the binding at a path, or appends it when absent: the effect
of `ioutil.WriteFile` on one regular file. -/
def insertFile : List (KeyPath × Bytes) → KeyPath → Bytes → List (KeyPath × Bytes)
  | [], p, d => [(p, d)]
  | (q, e) :: rest, p, d =>
    if q = p then (p, d) :: rest else (q, e) :: insertFile rest p d

/-- Removes the binding at a path: the effect of `os.Remove` on one
regular file. -/
def removeFile : List (KeyPath × Bytes) → KeyPath → List (KeyPath × Bytes)
  | [], _ => []
  | (q, e) :: rest, p =>
    if q = p then removeFile rest p else (q, e) :: removeFile rest p

/-- The classification of what currently exists at a resolved path:
the spec's `{Absent, File, Directory}`. -/
inductive PathKind where
  | Absent
  | File
  | Directory
deriving DecidableEq

/-- KeyPath Resolver, `classify(path)`: a metadata probe (`os.Stat`) of the
resolved path, consumed uniformly by every engine operation. -/
def classify (fs : FS) (p : KeyPath) : PathKind :=
  match lookupF fs.files p with
  | some _ => .File
  | none => if p ∈ fs.dirs then .Directory else .Absent

/-- The error taxonomy the operations surface: an empty key is rejected by
validation, and genuine wrong-kind filesystem conditions are I/O errors. -/
inductive StorageError where
  | keyIsEmpty
  | notADirectory
  | isADirectory
  | notRegularFile
deriving DecidableEq

instance {ε α : Type} [DecidableEq ε] [DecidableEq α] : DecidableEq (Except ε α) :=
  fun a b =>
    match a, b with
    | .ok x, .ok y =>
      if h : x = y then .isTrue (by rw [h]) else .isFalse (by intro hc; cases hc; exact h rfl)
    | .error x, .error y =>
      if h : x = y then .isTrue (by rw [h]) else .isFalse (by intro hc; cases hc; exact h rfl)
    | .ok _, .error _ => .isFalse (by intro hc; cases hc)
    | .error _, .ok _ => .isFalse (by intro hc; cases hc)

/-- The ascending chain of nonempty prefixes of a path:
`ascPrefixes [a,b] = [[a],[a,b]]`. These are the directories `os.MkdirAll`
must bring into existence for that path. -/
def ascPrefixes : KeyPath → List KeyPath
  | [] => []
  | s :: rest => [s] :: (ascPrefixes rest).map (fun q => s :: q)

/-- Adds each given directory path that is not already present. -/
def addDirs : List KeyPath → List KeyPath → List KeyPath
  | ds, [] => ds
  | ds, q :: qs => addDirs (if q ∈ ds then ds else q :: ds) qs

/-- `os.MkdirAll` on the resolved path `d`: fails when a regular file
stands where one of the directories must go, and otherwise (idempotently)
brings every prefix of `d` into existence as a directory. -/
def mkdirAll (fs : FS) (d : KeyPath) : Except StorageError FS :=
  if ∃ q ∈ ascPrefixes d, (lookupF fs.files q).isSome then .error .notADirectory
  else .ok { fs with dirs := addDirs fs.dirs (ascPrefixes d) }

/-- Modelled from the spec: `Create(key, data)` (§4.2) — rejects the empty
key, creates all missing intermediate namespace directories, fails when the
leaf currently denotes a namespace node, and otherwise writes `data` to the
leaf path, replacing any prior content in full. -/
def DiskStorage.Create (fs : FS) (key : String) (data : Bytes) : Except StorageError FS :=
  if key = "" then .error .keyIsEmpty
  else
    match mkdirAll fs (resolve key).dropLast with
    | .error e => .error e
    | .ok fs1 =>
      if classify fs1 (resolve key) = .Directory then .error .isADirectory
      else .ok { fs1 with files := insertFile fs1.files (resolve key) data }

/-- Modelled from the spec: `Get(key)` (§4.2) — empty result with no error
when the key is absent, an error when it denotes a namespace node, and the
entry's full content when it denotes an entry. -/
def DiskStorage.Get (fs : FS) (key : String) : Except StorageError Bytes :=
  if key = "" then .error .keyIsEmpty
  else
    match classify fs (resolve key) with
    | .Absent => .ok []
    | .File => .ok ((lookupF fs.files (resolve key)).getD [])
    | .Directory => .error .notRegularFile

/-- Modelled from the spec: `Update(key, data)` (§4.2) — an empty payload
is a no-op that leaves the entry's existing content unchanged
(`TestUpdateEmptyString`); otherwise the entry's content is overwritten,
which the engine performs as the same upsert as `Create` (`TestUpdate`). -/
def DiskStorage.Update (fs : FS) (key : String) (data : Bytes) : Except StorageError FS :=
  if key = "" then .error .keyIsEmpty
  else if data = [] then .ok fs
  else DiskStorage.Create fs key data

/-- Modelled from the spec: `Delete(key)` (§4.2) — succeeds with no error
on an absent key, removes the single regular file of an entry key, and on
a directory key returns no error while removing nothing, as pinned by
`TestDeleteDir`, which asserts the descendant file is still there
afterwards. -/
def DiskStorage.Delete (fs : FS) (key : String) : Except StorageError FS :=
  if key = "" then .error .keyIsEmpty
  else
    match classify fs (resolve key) with
    | .Absent => .ok fs
    | .File => .ok { fs with files := removeFile fs.files (resolve key) }
    | .Directory => .ok fs

/-- Whether `q` lies strictly below the directory path `p`. -/
def segsBelow : KeyPath → KeyPath → Bool
  | [], [] => false
  | [], _ :: _ => true
  | _ :: _, [] => false
  | a :: as', b :: bs => if a = b then segsBelow as' bs else false

/-- The entry descendants of a directory path: every stored regular file
strictly below it, in store order — what a recursive walk visits. -/
def entriesUnder (fs : FS) (p : KeyPath) : List (KeyPath × Bytes) :=
  fs.files.filter (fun e => segsBelow p e.1)

/-- Modelled from the spec: `List(key)` (§4.2) — empty sequence with no
error when absent, a one-element sequence with the entry's content on an
entry key, and the contents of every entry in the subtree on a namespace
node, in unspecified order. -/
def DiskStorage.List (fs : FS) (key : String) : Except StorageError BytesSeq :=
  if key = "" then .error .keyIsEmpty
  else
    match classify fs (resolve key) with
    | .Absent => .ok []
    | .File => .ok [(lookupF fs.files (resolve key)).getD []]
    | .Directory => .ok ((entriesUnder fs (resolve key)).map (fun e => e.2))

/-- Modelled from the spec: `ListKeys(key)` (§4.2) — same resolution and
traversal as `List`, but returning each discovered entry's full key
relative to the cache root, rebuilt from its walked path. -/
def DiskStorage.ListKeys (fs : FS) (key : String) : Except StorageError KeySeq :=
  if key = "" then .error .keyIsEmpty
  else
    match classify fs (resolve key) with
    | .Absent => .ok []
    | .File => .ok [keyOfPath (resolve key)]
    | .Directory => .ok ((entriesUnder fs (resolve key)).map (fun e => keyOfPath e.1))

/-- Modelled from the spec: the cache root of the reference engine is a
package-level constant (§9, "implicit global cache-root state"), referred
to by the tests as `cacheBaseDir`; its concrete path value is not among
the sources, so any fixed constant serves. -/
def cacheBaseDir : String := "/etc/kubernetes/cache"

/-- The engine handle; it records the root it is bound to. -/
structure DiskStorage where
  baseDir : String
deriving DecidableEq

/-- Modelled from the spec: the constructor, called `NewDiskStorage()` with
no root argument throughout the test suite — it idempotently creates the
fixed `cacheBaseDir` on the host filesystem and hands back an engine bound
to it. -/
def NewDiskStorage (host : FS) : Except StorageError (FS × DiskStorage) :=
  match mkdirAll host (resolve cacheBaseDir) with
  | .error e => .error e
  | .ok host1 => .ok (host1, { baseDir := cacheBaseDir })

/-- The structural invariants of the data model (§3): no path is both a
file and a directory, and every ancestor of a stored entry exists as a
directory. -/
def WF (fs : FS) : Prop :=
  (∀ p ∈ fs.dirs, lookupF fs.files p = none) ∧
  (∀ e ∈ fs.files, ∀ q ∈ ascPrefixes e.1.dropLast, q ∈ fs.dirs)

instance (fs : FS) : Decidable (WF fs) := by
  unfold WF; infer_instance

/-! ## Resolver lemmas -/

theorem splitSegs_ne_nil (l : List Char) : splitSegs l ≠ [] := by
  cases l with
  | nil => simp [splitSegs]
  | cons c rest =>
    simp only [splitSegs]
    split
    · exact List.cons_ne_nil _ _
    · split
      · exact List.cons_ne_nil _ _
      · exact List.cons_ne_nil _ _

theorem joinSegs_splitSegs (l : List Char) : joinSegs (splitSegs l) = l := by
  induction l with
  | nil => rfl
  | cons c rest ih =>
    by_cases hc : c = '/'
    · subst hc
      simp only [splitSegs, if_pos rfl]
      cases h : splitSegs rest with
      | nil => exact absurd h (splitSegs_ne_nil rest)
      | cons s ss =>
        rw [h] at ih
        show ([] : List Char) ++ '/' :: joinSegs (s :: ss) = '/' :: rest
        rw [ih]
        rfl
    · simp only [splitSegs, if_neg hc]
      cases h : splitSegs rest with
      | nil => exact absurd h (splitSegs_ne_nil rest)
      | cons s ss =>
        rw [h] at ih
        cases ss with
        | nil =>
          show c :: s = c :: rest
          simp only [joinSegs] at ih
          rw [ih]
        | cons s2 ss2 =>
          show (c :: s) ++ '/' :: joinSegs (s2 :: ss2) = c :: rest
          simp only [joinSegs] at ih
          simp [ih]

theorem keyOfPath_resolve (k : String) : keyOfPath (resolve k) = k := by
  unfold keyOfPath resolve
  rw [List.map_map]
  have hid : (String.data ∘ fun cs => (⟨cs⟩ : String)) = id := rfl
  rw [hid, List.map_id, joinSegs_splitSegs]

theorem resolve_ne_nil (k : String) : resolve k ≠ [] := by
  unfold resolve
  intro h
  rw [List.map_eq_nil_iff] at h
  exact splitSegs_ne_nil k.data h

/-! ## File-table lemmas -/

theorem lookupF_insertFile_self (l : List (KeyPath × Bytes)) (p : KeyPath) (d : Bytes) :
    lookupF (insertFile l p d) p = some d := by
  induction l with
  | nil => simp [insertFile, lookupF]
  | cons e rest ih =>
    obtain ⟨q, v⟩ := e
    simp only [insertFile]
    by_cases h : q = p
    · rw [if_pos h]
      simp [lookupF]
    · rw [if_neg h]
      simp only [lookupF, if_neg h]
      exact ih

theorem lookupF_insertFile_ne (l : List (KeyPath × Bytes)) (p q : KeyPath) (d : Bytes)
    (h : q ≠ p) : lookupF (insertFile l p d) q = lookupF l q := by
  have hpq : ¬ p = q := fun hh => h hh.symm
  induction l with
  | nil =>
    simp only [insertFile, lookupF]
    rw [if_neg hpq]
  | cons e rest ih =>
    obtain ⟨r, v⟩ := e
    simp only [insertFile]
    by_cases hr : r = p
    · rw [if_pos hr]
      subst hr
      simp only [lookupF, if_neg hpq]
    · rw [if_neg hr]
      simp only [lookupF]
      by_cases hrq : r = q
      · simp only [if_pos hrq]
      · simp only [if_neg hrq]
        exact ih

theorem lookupF_mem {l : List (KeyPath × Bytes)} {p : KeyPath} {d : Bytes}
    (h : lookupF l p = some d) : (p, d) ∈ l := by
  induction l with
  | nil => cases h
  | cons e rest ih =>
    obtain ⟨q, v⟩ := e
    simp only [lookupF] at h
    split at h
    · next heq =>
      cases h
      subst heq
      exact List.mem_cons_self _ _
    · exact List.mem_cons_of_mem _ (ih h)

/-! ## Directory-set lemmas -/

theorem mem_addDirs (q : KeyPath) (ds qs : List KeyPath) :
    q ∈ addDirs ds qs ↔ q ∈ ds ∨ q ∈ qs := by
  induction qs generalizing ds with
  | nil => simp [addDirs]
  | cons r rs ih =>
    simp only [addDirs]
    by_cases hr : r ∈ ds
    · rw [if_pos hr, ih]
      simp only [List.mem_cons]
      constructor
      · rintro (h | h)
        · exact Or.inl h
        · exact Or.inr (Or.inr h)
      · rintro (h | h | h)
        · exact Or.inl h
        · exact Or.inl (by rwa [h])
        · exact Or.inr h
    · rw [if_neg hr, ih]
      simp only [List.mem_cons]
      tauto

theorem length_le_of_mem_ascPrefixes {q d : KeyPath} (h : q ∈ ascPrefixes d) :
    q.length ≤ d.length := by
  induction d generalizing q with
  | nil => simp [ascPrefixes] at h
  | cons s rest ih =>
    simp only [ascPrefixes, List.mem_cons, List.mem_map] at h
    rcases h with h | ⟨r, hr, hq⟩
    · subst h
      simp
    · subst hq
      simpa using ih hr

theorem ne_of_mem_ascPrefixes_dropLast {q p : KeyPath} (hp : p ≠ [])
    (h : q ∈ ascPrefixes p.dropLast) : q ≠ p := by
  have h1 : q.length ≤ (List.dropLast p).length := length_le_of_mem_ascPrefixes h
  have h2 : 0 < p.length := List.length_pos.mpr hp
  rw [List.length_dropLast] at h1
  intro hqp
  rw [hqp] at h1
  omega

/-! ## Operation characterizations -/

theorem mkdirAll_ok_iff {fs fs1 : FS} {d : KeyPath} :
    mkdirAll fs d = .ok fs1 ↔
      (∀ q ∈ ascPrefixes d, lookupF fs.files q = none) ∧
      fs1 = { fs with dirs := addDirs fs.dirs (ascPrefixes d) } := by
  unfold mkdirAll
  split
  · next hex =>
    constructor
    · intro h
      simp at h
    · rintro ⟨hall, -⟩
      obtain ⟨q, hq, hsome⟩ := hex
      rw [hall q hq] at hsome
      simp at hsome
  · next hex =>
    simp only [Except.ok.injEq]
    constructor
    · intro h
      refine ⟨fun q hq => ?_, h.symm⟩
      by_contra hne
      exact hex ⟨q, hq, Option.isSome_iff_ne_none.mpr hne⟩
    · rintro ⟨-, rfl⟩
      rfl

theorem classify_file {fs : FS} {p : KeyPath} {d : Bytes}
    (h : lookupF fs.files p = some d) : classify fs p = .File := by
  unfold classify
  rw [h]

theorem classify_absent_iff {fs : FS} {p : KeyPath} :
    classify fs p = .Absent ↔ lookupF fs.files p = none ∧ p ∉ fs.dirs := by
  unfold classify
  cases h : lookupF fs.files p with
  | some d => simp
  | none =>
    by_cases hd : p ∈ fs.dirs
    · simp [hd]
    · simp [hd]

theorem create_ok_iff {fs fs' : FS} {k : String} {p : Bytes} :
    DiskStorage.Create fs k p = .ok fs' ↔
      k ≠ "" ∧ ∃ fs1, mkdirAll fs (resolve k).dropLast = .ok fs1 ∧
        classify fs1 (resolve k) ≠ .Directory ∧
        fs' = { fs1 with files := insertFile fs1.files (resolve k) p } := by
  unfold DiskStorage.Create
  split
  · next hk =>
    constructor
    · intro h
      simp at h
    · rintro ⟨hne, -⟩
      exact absurd hk hne
  · next hk =>
    split
    · next e heq =>
      constructor
      · intro h
        simp at h
      · rintro ⟨-, fs2, hmk, -, -⟩
        rw [heq] at hmk
        simp at hmk
    · next fs1 heq =>
      split
      · next hdir =>
        constructor
        · intro h
          simp at h
        · rintro ⟨-, fs2, hmk, hnd, -⟩
          rw [heq] at hmk
          cases hmk
          exact absurd hdir hnd
      · next hdir =>
        simp only [Except.ok.injEq]
        constructor
        · intro h
          exact ⟨hk, fs1, heq, hdir, h.symm⟩
        · rintro ⟨-, fs2, hmk, -, rfl⟩
          rw [heq] at hmk
          cases hmk
          rfl

theorem get_absent {fs : FS} {k : String} (hk : k ≠ "")
    (h : classify fs (resolve k) = .Absent) : DiskStorage.Get fs k = .ok [] := by
  unfold DiskStorage.Get
  rw [if_neg hk, h]

theorem get_file {fs : FS} {k : String} {d : Bytes} (hk : k ≠ "")
    (h : lookupF fs.files (resolve k) = some d) : DiskStorage.Get fs k = .ok d := by
  unfold DiskStorage.Get
  rw [if_neg hk, classify_file h, h]
  rfl

/-- A successful `Create` followed by `Get` on the same key: given that no
regular file blocks an intermediate directory, `Create` succeeds and the
subsequent `Get` reads back exactly the written payload. -/
theorem create_total (fs : FS) (k : String) (p : Bytes)
    (hk : k ≠ "")
    (hpre : ∀ q ∈ ascPrefixes (resolve k).dropLast, lookupF fs.files q = none)
    (hnd : classify { fs with dirs := addDirs fs.dirs (ascPrefixes (resolve k).dropLast) }
        (resolve k) ≠ .Directory) :
    (DiskStorage.Create fs k p).bind (fun fs2 => DiskStorage.Get fs2 k) = .ok p := by
  have hmk : mkdirAll fs (resolve k).dropLast =
      .ok { fs with dirs := addDirs fs.dirs (ascPrefixes (resolve k).dropLast) } :=
    mkdirAll_ok_iff.mpr ⟨hpre, rfl⟩
  have hcr : DiskStorage.Create fs k p = .ok
      { files := insertFile fs.files (resolve k) p
        dirs := addDirs fs.dirs (ascPrefixes (resolve k).dropLast) } :=
    create_ok_iff.mpr ⟨hk, _, hmk, hnd, rfl⟩
  rw [hcr]
  simp only [Except.bind]
  exact get_file hk (lookupF_insertFile_self fs.files (resolve k) p)

/-- Specialization of `create_total` to a key that already denotes an
entry: overwriting an existing regular file always succeeds. -/
theorem create_total_of_file (fs : FS) (k : String) (d0 p : Bytes)
    (hk : k ≠ "")
    (hfile : lookupF fs.files (resolve k) = some d0)
    (hpre : ∀ q ∈ ascPrefixes (resolve k).dropLast, lookupF fs.files q = none) :
    (DiskStorage.Create fs k p).bind (fun fs2 => DiskStorage.Get fs2 k) = .ok p := by
  apply create_total fs k p hk hpre
  have hcf : classify { fs with dirs := addDirs fs.dirs (ascPrefixes (resolve k).dropLast) }
      (resolve k) = .File := classify_file hfile
  rw [hcf]
  decide

/-! ## Claims -/

/-- C1, counterexample: on the state produced by `Create "a/b"`, the key
`"a"` denotes a namespace node; `Delete "a"` reports success yet the state
is unchanged, and `Get`/`List` on the descendant key `"a/b"` still return
its content rather than empty results — refuting that `Delete` on a
namespace node removes the subtree beneath it. -/
theorem delete_namespace_counterexample :
    DiskStorage.Create FS.empty "a/b" [7] = .ok ⟨[(["a", "b"], [7])], [["a"]]⟩ ∧
    classify ⟨[(["a", "b"], [7])], [["a"]]⟩ (resolve "a") = .Directory ∧
    DiskStorage.Delete ⟨[(["a", "b"], [7])], [["a"]]⟩ "a" = .ok ⟨[(["a", "b"], [7])], [["a"]]⟩ ∧
    DiskStorage.Get ⟨[(["a", "b"], [7])], [["a"]]⟩ "a/b" = .ok [7] ∧
    DiskStorage.List ⟨[(["a", "b"], [7])], [["a"]]⟩ "a/b" = .ok [[7]] :=
  ⟨rfl, rfl, rfl, rfl, rfl⟩

/-- C1 (amended): `Delete` on a key that denotes a namespace node returns
no error but removes nothing — the state is left exactly as it was, so
every descendant entry survives, exactly as `TestDeleteDir` asserts. -/
theorem delete_on_namespace_node_is_noop (fs : FS) (k : String)
    (hk : k ≠ "") (hdir : classify fs (resolve k) = .Directory) :
    DiskStorage.Delete fs k = .ok fs := by
  unfold DiskStorage.Delete
  rw [if_neg hk, hdir]

theorem delete_on_namespace_node_is_noop_witness :
    DiskStorage.Delete ⟨[(["a", "b"], [7])], [["a"]]⟩ "a" =
      .ok ⟨[(["a", "b"], [7])], [["a"]]⟩ :=
  delete_on_namespace_node_is_noop ⟨[(["a", "b"], [7])], [["a"]]⟩ "a" (by decide) (by rfl)

/-- C2: on an existing entry, `Update` with a non-empty payload replaces
the content and returns no error, while `Update` with the empty payload is
a no-op returning no error, leaving the prior content readable. -/
theorem update_semantics (fs : FS) (k : String) (d d0 : Bytes)
    (hwf : WF fs) (hk : k ≠ "") (hent : lookupF fs.files (resolve k) = some d0) :
    (d ≠ [] → (DiskStorage.Update fs k d).bind (fun fs2 => DiskStorage.Get fs2 k) = .ok d) ∧
    DiskStorage.Update fs k [] = .ok fs ∧ DiskStorage.Get fs k = .ok d0 := by
  have hpre : ∀ q ∈ ascPrefixes (resolve k).dropLast, lookupF fs.files q = none := by
    intro q hq
    have hmem : (resolve k, d0) ∈ fs.files := lookupF_mem hent
    have hdir : q ∈ fs.dirs := hwf.2 (resolve k, d0) hmem q hq
    exact hwf.1 q hdir
  refine ⟨?_, ?_, get_file hk hent⟩
  · intro hd
    have hu : DiskStorage.Update fs k d = DiskStorage.Create fs k d := by
      unfold DiskStorage.Update
      rw [if_neg hk, if_neg hd]
    rw [hu]
    exact create_total_of_file fs k d0 d hk hent hpre
  · unfold DiskStorage.Update
    rw [if_neg hk, if_pos rfl]

theorem update_semantics_witness :
    WF (⟨[(["a", "b"], [7])], [["a"]]⟩ : FS) ∧
    lookupF [(["a", "b"], [7])] (resolve "a/b") = some [7] ∧
    (DiskStorage.Update ⟨[(["a", "b"], [7])], [["a"]]⟩ "a/b" [9]).bind
      (fun fs2 => DiskStorage.Get fs2 "a/b") = .ok [9] ∧
    DiskStorage.Update ⟨[(["a", "b"], [7])], [["a"]]⟩ "a/b" [] =
      .ok ⟨[(["a", "b"], [7])], [["a"]]⟩ ∧
    DiskStorage.Get ⟨[(["a", "b"], [7])], [["a"]]⟩ "a/b" = .ok [7] :=
  have h := update_semantics ⟨[(["a", "b"], [7])], [["a"]]⟩ "a/b" [9] [7]
    (by decide) (by decide) (by rfl)
  ⟨by decide, by rfl, h.1 (by decide), h.2.1, h.2.2⟩

/-- C3: whenever `Create(k, p)` succeeds, `Get(k)` returns exactly `p`,
whatever the prior state was; and a further `Create` with any new payload
on the same key succeeds and fully overwrites the value. -/
theorem create_then_get (fs fs' : FS) (k : String) (p : Bytes)
    (h : DiskStorage.Create fs k p = .ok fs') :
    DiskStorage.Get fs' k = .ok p ∧
    ∀ p2 : Bytes,
      (DiskStorage.Create fs' k p2).bind (fun fs2 => DiskStorage.Get fs2 k) = .ok p2 := by
  obtain ⟨hk, fs1, hmk, hnd, hfs'⟩ := create_ok_iff.mp h
  obtain ⟨hnone, hfs1⟩ := mkdirAll_ok_iff.mp hmk
  have hfiles1 : fs1.files = fs.files := by rw [hfs1]
  have hlook' : lookupF fs'.files (resolve k) = some p := by
    rw [hfs']
    exact lookupF_insertFile_self fs1.files (resolve k) p
  constructor
  · exact get_file hk hlook'
  · intro p2
    apply create_total_of_file fs' k p p2 hk hlook'
    intro q hq
    rw [hfs']
    show lookupF (insertFile fs1.files (resolve k) p) q = none
    rw [lookupF_insertFile_ne fs1.files (resolve k) q p
      (ne_of_mem_ascPrefixes_dropLast (resolve_ne_nil k) hq)]
    rw [hfiles1]
    exact hnone q hq

theorem create_then_get_witness :
    DiskStorage.Create FS.empty "a/b" [7] = .ok ⟨[(["a", "b"], [7])], [["a"]]⟩ ∧
    DiskStorage.Get ⟨[(["a", "b"], [7])], [["a"]]⟩ "a/b" = .ok [7] ∧
    (DiskStorage.Create ⟨[(["a", "b"], [7])], [["a"]]⟩ "a/b" [9]).bind
      (fun fs2 => DiskStorage.Get fs2 "a/b") = .ok [9] :=
  have h := create_then_get FS.empty ⟨[(["a", "b"], [7])], [["a"]]⟩ "a/b" [7] rfl
  ⟨rfl, h.1, h.2 [9]⟩

/-- C4: on an absent key, `Get` returns empty data with no error, `List`
and `ListKeys` return the empty sequence with no error, and `Delete`
returns no error leaving the state unchanged — absence is never an error
for these four operations. -/
theorem absent_key_empty_results (fs : FS) (k : String)
    (hk : k ≠ "") (habs : classify fs (resolve k) = .Absent) :
    DiskStorage.Get fs k = .ok [] ∧ DiskStorage.List fs k = .ok [] ∧
    DiskStorage.ListKeys fs k = .ok [] ∧ DiskStorage.Delete fs k = .ok fs := by
  refine ⟨get_absent hk habs, ?_, ?_, ?_⟩
  · unfold DiskStorage.List
    rw [if_neg hk, habs]
  · unfold DiskStorage.ListKeys
    rw [if_neg hk, habs]
  · unfold DiskStorage.Delete
    rw [if_neg hk, habs]

theorem absent_key_empty_results_witness :
    DiskStorage.Get FS.empty "a" = .ok [] ∧ DiskStorage.List FS.empty "a" = .ok [] ∧
    DiskStorage.ListKeys FS.empty "a" = .ok [] ∧ DiskStorage.Delete FS.empty "a" = .ok FS.empty :=
  absent_key_empty_results FS.empty "a" (by decide) (by rfl)

/-- C5: `Get` on a key that denotes a namespace node fails with an error
instead of returning data. -/
theorem get_on_namespace_node_errors (fs : FS) (k : String)
    (hk : k ≠ "") (hdir : classify fs (resolve k) = .Directory) :
    DiskStorage.Get fs k = .error .notRegularFile := by
  unfold DiskStorage.Get
  rw [if_neg hk, hdir]

theorem get_on_namespace_node_errors_witness :
    DiskStorage.Get ⟨[(["a", "b"], [7])], [["a"]]⟩ "a" = .error .notRegularFile :=
  get_on_namespace_node_errors ⟨[(["a", "b"], [7])], [["a"]]⟩ "a" (by decide) (by rfl)

/-- C6: on a key denoting a namespace node with exactly N entry
descendants, `List` returns exactly N payloads and `ListKeys` exactly N
full keys (relative to the cache root), and as unordered collections the
results equal the stored contents and stored keys. -/
theorem list_listKeys_on_namespace_node (fs : FS) (k : String)
    (hk : k ≠ "") (hdir : classify fs (resolve k) = .Directory) :
    (DiskStorage.List fs k).map (fun l => l.length) =
      .ok (entriesUnder fs (resolve k)).length ∧
    (DiskStorage.ListKeys fs k).map (fun l => l.length) =
      .ok (entriesUnder fs (resolve k)).length ∧
    (DiskStorage.List fs k).map (fun l => Multiset.ofList l) =
      .ok (Multiset.ofList ((entriesUnder fs (resolve k)).map (fun e => e.2))) ∧
    (DiskStorage.ListKeys fs k).map (fun l => Multiset.ofList l) =
      .ok (Multiset.ofList ((entriesUnder fs (resolve k)).map (fun e => keyOfPath e.1))) := by
  have hl : DiskStorage.List fs k =
      .ok ((entriesUnder fs (resolve k)).map (fun e => e.2)) := by
    unfold DiskStorage.List
    rw [if_neg hk, hdir]
  have hlk : DiskStorage.ListKeys fs k =
      .ok ((entriesUnder fs (resolve k)).map (fun e => keyOfPath e.1)) := by
    unfold DiskStorage.ListKeys
    rw [if_neg hk, hdir]
  rw [hl, hlk]
  refine ⟨?_, ?_, rfl, rfl⟩
  · simp only [Except.map, List.length_map]
  · simp only [Except.map, List.length_map]

theorem list_listKeys_on_namespace_node_witness :
    (DiskStorage.List ⟨[(["a", "b"], [1]), (["a", "c"], [2])], [["a"]]⟩ "a").map
      (fun l => l.length) = .ok 2 ∧
    (DiskStorage.ListKeys ⟨[(["a", "b"], [1]), (["a", "c"], [2])], [["a"]]⟩ "a").map
      (fun l => l.length) = .ok 2 ∧
    (DiskStorage.List ⟨[(["a", "b"], [1]), (["a", "c"], [2])], [["a"]]⟩ "a").map
      (fun l => Multiset.ofList l) = .ok (Multiset.ofList [[1], [2]]) ∧
    (DiskStorage.ListKeys ⟨[(["a", "b"], [1]), (["a", "c"], [2])], [["a"]]⟩ "a").map
      (fun l => Multiset.ofList l) = .ok (Multiset.ofList ["a/b", "a/c"]) :=
  list_listKeys_on_namespace_node ⟨[(["a", "b"], [1]), (["a", "c"], [2])], [["a"]]⟩ "a"
    (by decide) (by rfl)

/-- C7: on a key denoting a single entry, `List` returns the one-element
sequence holding exactly that entry's content, and `ListKeys` the
one-element sequence holding exactly that key. -/
theorem list_listKeys_on_entry (fs : FS) (k : String) (d : Bytes)
    (hk : k ≠ "") (hfile : lookupF fs.files (resolve k) = some d) :
    DiskStorage.List fs k = .ok [d] ∧ DiskStorage.ListKeys fs k = .ok [k] := by
  constructor
  · unfold DiskStorage.List
    rw [if_neg hk, classify_file hfile, hfile]
    rfl
  · unfold DiskStorage.ListKeys
    rw [if_neg hk, classify_file hfile, keyOfPath_resolve]

theorem list_listKeys_on_entry_witness :
    DiskStorage.List ⟨[(["a", "b"], [7])], [["a"]]⟩ "a/b" = .ok [[7]] ∧
    DiskStorage.ListKeys ⟨[(["a", "b"], [7])], [["a"]]⟩ "a/b" = .ok ["a/b"] :=
  list_listKeys_on_entry ⟨[(["a", "b"], [7])], [["a"]]⟩ "a/b" [7] (by decide) (by rfl)

/-- C8, counterexample: the constructor takes no root parameter — whatever
host state it is invoked on, the engine instance it returns is bound to
the one fixed `cacheBaseDir`; two separately constructed instances share
that root, refuting that a caller can bind two instances to different
roots. -/
theorem fixed_root_counterexample :
    (NewDiskStorage FS.empty).map (fun r => r.2.baseDir) = .ok cacheBaseDir ∧
    (NewDiskStorage ⟨[], [["other"]]⟩).map (fun r => r.2.baseDir) = .ok cacheBaseDir :=
  ⟨rfl, rfl⟩

/-- C8 (amended): the cache root is a fixed package-level constant;
`NewDiskStorage` takes no root parameter, creates that root (and its
ancestors) if absent at construction, and every instance it returns is
bound to the same `cacheBaseDir`. -/
theorem newDiskStorage_fixed_root (host host' : FS) (s : DiskStorage)
    (h : NewDiskStorage host = .ok (host', s)) :
    s.baseDir = cacheBaseDir ∧ ∀ q ∈ ascPrefixes (resolve cacheBaseDir), q ∈ host'.dirs := by
  unfold NewDiskStorage at h
  split at h
  · simp at h
  · next host1 heq =>
    obtain ⟨hnone, hdirs⟩ := mkdirAll_ok_iff.mp heq
    injection h with hpair
    injection hpair with h1 h2
    subst h1
    subst h2
    refine ⟨rfl, ?_⟩
    intro q hq
    rw [hdirs]
    exact (mem_addDirs q _ _).mpr (Or.inr hq)

theorem newDiskStorage_fixed_root_witness :
    NewDiskStorage FS.empty = .ok
      (⟨[], [["", "etc", "kubernetes", "cache"], ["", "etc", "kubernetes"], ["", "etc"], [""]]⟩,
        ⟨cacheBaseDir⟩) ∧
    (⟨cacheBaseDir⟩ : DiskStorage).baseDir = cacheBaseDir ∧
    [""] ∈ (⟨[], [["", "etc", "kubernetes", "cache"], ["", "etc", "kubernetes"], ["", "etc"],
      [""]]⟩ : FS).dirs :=
  have h := newDiskStorage_fixed_root FS.empty
    ⟨[], [["", "etc", "kubernetes", "cache"], ["", "etc", "kubernetes"], ["", "etc"], [""]]⟩
    ⟨cacheBaseDir⟩ rfl
  ⟨rfl, h.1, h.2 [""] (by decide)⟩

/-- C10: `Create(k, p)` succeeds and stores exactly `p` when every
intermediate namespace directory of `k` already exists beforehand —
pre-existing parents are not an error, and the subsequent `Get` reads back
`p`. -/
theorem create_with_existing_dirs (fs : FS) (k : String) (p : Bytes)
    (hwf : WF fs) (hk : k ≠ "")
    (hds : ∀ q ∈ ascPrefixes (resolve k).dropLast, q ∈ fs.dirs)
    (habs : classify fs (resolve k) = .Absent) :
    (DiskStorage.Create fs k p).bind (fun fs2 => DiskStorage.Get fs2 k) = .ok p := by
  obtain ⟨hnofile, hnodir⟩ := classify_absent_iff.mp habs
  apply create_total fs k p hk (fun q hq => hwf.1 q (hds q hq))
  have habs2 : classify { fs with dirs := addDirs fs.dirs (ascPrefixes (resolve k).dropLast) }
      (resolve k) = .Absent := by
    apply classify_absent_iff.mpr
    refine ⟨hnofile, ?_⟩
    intro hmem
    rcases (mem_addDirs _ _ _).mp hmem with hin | hin
    · exact hnodir hin
    · exact ne_of_mem_ascPrefixes_dropLast (resolve_ne_nil k) hin rfl
  rw [habs2]
  decide

theorem create_with_existing_dirs_witness :
    WF (⟨[], [["a"]]⟩ : FS) ∧
    (DiskStorage.Create ⟨[], [["a"]]⟩ "a/b" [7]).bind
      (fun fs2 => DiskStorage.Get fs2 "a/b") = .ok [7] :=
  ⟨by decide,
    create_with_existing_dirs ⟨[], [["a"]]⟩ "a/b" [7] (by decide) (by decide)
      (by decide) (by rfl)⟩
